import Mathlib

/-!
Shallow embedding of the yellowbox-react warning-collection core
(`src/common.js` together with the collector-facing logic of the
`YellowBox` component: `dismissWarning`, the subscription made in
`componentDidMount`, and its removal in `componentWillUnmount`),
with theorems checking the specification's claims about it.
-/

set_option maxHeartbeats 1000000

namespace YellowBox

/-- JavaScript values as far as the warning collector inspects them:
strings, integer numbers, `undefined`, and a minimal self-referential
value (the cyclic array built by `a = []; a.push(a)`), which is the kind
of value that makes plain `JSON.stringify` throw. -/
inductive JSVal where
  | str (s : String)
  | num (n : Int)
  | undef
  | circular
  deriving DecidableEq, Repr

/-- The `String(v)` coercion, used by `format = String(format)` and by the
replacer of `format.replace(/%s/g, ...)`. For the cyclic array,
JavaScript's cycle-aware `Array.prototype.join` yields the empty
string. -/
def jsString : JSVal → String
  | .str s => s
  | .num n => toString n
  | .undef => "undefined"
  | .circular => ""

/-- Model of the `json-stringify-safe` dependency called by
`updateWarningMap`: `JSON.stringify` with a replacer that renders a cyclic
reference as the placeholder `[Circular ~]` instead of throwing, so the
cyclic array serializes to `["[Circular ~]"]`. `JSON.stringify(undefined)`
returns `undefined`, which `Array.prototype.join` later renders as the
empty string. -/
def stringifySafe : JSVal → String
  | .str s => "\"" ++ s ++ "\""
  | .num n => toString n
  | .undef => ""
  | .circular => "[\"[Circular ~]\"]"

/-- JavaScript `String.prototype.startsWith`: literal character-for-character
comparison at position 0. -/
def jsStartsWith (s sub : String) : Bool :=
  sub.data.isPrefixOf s.data

/-- The replacement pass of `format.replace(/%s/g, match => args[index++])`:
scan left to right, replace each non-overlapping `%s` occurrence with the
next argument coerced to string (`undefined`, hence `"undefined"`, past the
end of the argument list), and never rescan replaced text. -/
def sprintfAux (args : List JSVal) : List Char → Nat → List Char
  | '%' :: 's' :: rest, i =>
      (jsString (args.getD i JSVal.undef)).data ++ sprintfAux args rest (i + 1)
  | c :: rest, i => c :: sprintfAux args rest i
  | [], _ => []

/-- `sprintf(format, ...args)` from `src/common.js`. -/
def sprintf (format : String) (args : List JSVal) : String :=
  ⟨sprintfAux args format.data 0⟩

/-- `(format.match(/%s/g) || []).length`: the number of non-overlapping
`%s` occurrences in the format string. -/
def countPlaceholders : List Char → Nat
  | '%' :: 's' :: rest => countPlaceholders rest + 1
  | _ :: rest => countPlaceholders rest
  | [] => 0

/-- JavaScript `array.join(' ')` on an array of strings. -/
def joinSpace : List String → String
  | [] => ""
  | [s] => s
  | s :: rest => s ++ " " ++ joinSpace rest

/-- The canonical warning key computed at the start of `updateWarningMap`:
`[sprintf(format, ...args.slice(0, argCount)),
  ...args.slice(argCount).map(arg => stringifySafe(arg))].join(' ')`
after `format = String(format)`. -/
def warningKey (format : JSVal) (args : List JSVal) : String :=
  let fmt := jsString format
  let argCount := countPlaceholders fmt.data
  joinSpace (sprintf fmt (args.take argCount) ::
    (args.drop argCount).map stringifySafe)

/-- `_warningMap`: a JavaScript `Map` from warning key to count. A `Map`
iterates in insertion order, so it is modelled as an association list. -/
abbrev WarningMap := List (String × Nat)

/-- `Map.prototype.has`. -/
def mapHas : WarningMap → String → Bool
  | [], _ => false
  | p :: rest, k => p.1 = k || mapHas rest k

/-- `Map.prototype.get`, with the absent case collapsed to 0 (the code only
reads `get` under `has`, via `_warningMap.has(w) ? _warningMap.get(w) : 0`). -/
def mapGet : WarningMap → String → Nat
  | [], _ => 0
  | p :: rest, k => if p.1 = k then p.2 else mapGet rest k

/-- `Map.prototype.set`: update an existing key in place (preserving its
position in iteration order), otherwise append the new entry at the end. -/
def mapSet : WarningMap → String → Nat → WarningMap
  | [], k, v => [(k, v)]
  | p :: rest, k, v => if p.1 = k then (k, v) :: rest else p :: mapSet rest k v

/-- `Map.prototype.delete`: remove the entry for the key if present
(keys of a `Map` are unique), otherwise leave the map unchanged. -/
def mapDelete : WarningMap → String → WarningMap
  | [], _ => []
  | p :: rest, k => if p.1 = k then rest else p :: mapDelete rest k

/-- `updateWarningMap(format, ...args)` from `src/common.js`, acting on an
explicit map state: compute the canonical key, then
`count = map.has(key) ? map.get(key) : 0; map.set(key, count + 1)`.
The subsequent `emit` is modelled in `recordStep` below. -/
def updateWarningMap (format : JSVal) (args : List JSVal) (m : WarningMap) :
    WarningMap :=
  let warning := warningKey format args
  let count := if mapHas m warning then mapGet m warning else 0
  mapSet m warning (count + 1)

/-- `n` successive `updateWarningMap` calls with the same arguments. -/
def recordN (n : Nat) (format : JSVal) (args : List JSVal) (m : WarningMap) :
    WarningMap :=
  match n with
  | 0 => m
  | n + 1 => updateWarningMap format args (recordN n format args m)

/-- `dismissWarning` from the `YellowBox` component, acting on an explicit
map state. The argument is the clicked warning key or `null` (for
"Dismiss All"); the code branches on JavaScript truthiness
(`if (warning) warningMap.delete(warning) else warningMap.clear()`),
and the empty string is falsy. -/
def dismissWarning (warning : Option String) (m : WarningMap) : WarningMap :=
  match warning with
  | some w => if w ≠ "" then mapDelete m w else []
  | none => []

/-- `isWarningIgnored(warning)` from `src/common.js`. The global
`console.ignoredYellowBox` is passed explicitly: `none` models a value that
is not an array (`Array.isArray` false), `some l` an array of strings. -/
def isWarningIgnored (warning : String)
    (ignoredYellowBox : Option (List String)) : Bool :=
  match ignoredYellowBox with
  | some arr => arr.any (fun p => jsStartsWith warning p)
  | none => false

/-- The externally visible calls one invocation of a wrapped console entry
point makes: invocations of the original host implementation, and
invocations of `updateWarningMap` (each recorded as the full argument
list passed through `.apply(null, arguments)`). -/
structure LogOutcome where
  hostCalls : List (List JSVal)
  recordCalls : List (List JSVal)
  deriving DecidableEq, Repr

/-- The `console.error` wrapper installed by `src/common.js` when
`NODE_ENV !== 'production'`: always forward to the original `error`, and
additionally call `updateWarningMap` when the first argument is a string
starting with `'Warning: '`. -/
def consoleError (args : List JSVal) : LogOutcome where
  hostCalls := [args]
  recordCalls :=
    match args with
    | JSVal.str s :: _ => if jsStartsWith s "Warning: " then [args] else []
    | _ => []

/-- The `console.warn` wrapper installed by `src/common.js` when
`NODE_ENV !== 'production'`: forward to the original `warn` only when a
global `window` is defined (the comment calls this "a cheap trick to keep
blessed environment from printining warnings in the UI while still allowing
React web to print them"), and always call `updateWarningMap`. -/
def consoleWarn (windowDefined : Bool) (args : List JSVal) : LogOutcome where
  hostCalls := if windowDefined then [args] else []
  recordCalls := [args]

/-- State of the collector as seen by one mounted `YellowBox` component
(one subscriber): the shared `_warningMap`; whether the component's
listener is registered on `_warningEmitter`; whether a `setImmediate`
callback is pending (the listener's closure variable `scheduled`); and the
map states delivered to the component so far by fired `setImmediate`
callbacks (its `setState({warningMap})` calls), in order. -/
structure CollectorState where
  warningMap : WarningMap
  subscribed : Bool
  scheduled : Bool
  delivered : List WarningMap
  deriving DecidableEq, Repr

/-- One `updateWarningMap` call: the map is updated, and the synchronous
`_warningEmitter.emit('warning', _warningMap)` runs the listener if it is
registered, which executes `scheduled = scheduled || setImmediate(...)` —
so `scheduled` becomes true iff it already was or the listener ran. No
delivery happens synchronously. -/
def recordStep (format : JSVal) (args : List JSVal) (s : CollectorState) :
    CollectorState :=
  { s with
    warningMap := updateWarningMap format args s.warningMap
    scheduled := s.scheduled || s.subscribed }

/-- A `dismissWarning` call: it mutates the shared map and calls `setState`
directly on the dismissing component; it does not emit on the emitter. -/
def dismissStep (key : Option String) (s : CollectorState) : CollectorState :=
  { s with warningMap := dismissWarning key s.warningMap }

/-- The next turn of the event loop: a pending `setImmediate` callback
fires, runs `scheduled = null` and `this.setState({warningMap})`,
delivering the current map. `listener.remove()` does not cancel an
already-scheduled callback, so delivery does not depend on `subscribed`. -/
def tickStep (s : CollectorState) : CollectorState :=
  if s.scheduled then
    { s with scheduled := false, delivered := s.delivered ++ [s.warningMap] }
  else s

/-- `componentDidMount`: register the listener on `_warningEmitter`. -/
def subscribeStep (s : CollectorState) : CollectorState :=
  { s with subscribed := true }

/-- `componentWillUnmount` from `src/src/index.js`: it would call
`this._listener.remove()`, but only behind the guard
`typeof this._listener.remove === 'function'` — and `this._listener` is
the value returned by `addListener` on the `events` module's
`EventEmitter`, which is the emitter itself and has no `remove` method.
The guard therefore always fails and the listener is never removed, so
unmounting is a no-op on the subscription. (The older copy at
`src/index.js` calls `this._listener.remove()` unguarded, which throws a
`TypeError` on unmount.) -/
def unsubscribeStep (s : CollectorState) : CollectorState := s

/-- The operations that mutate the count mapping. -/
inductive MapOp where
  | record (format : JSVal) (args : List JSVal)
  | dismiss (key : Option String)
  deriving DecidableEq, Repr

def applyMapOp (m : WarningMap) : MapOp → WarningMap
  | .record f a => updateWarningMap f a m
  | .dismiss k => dismissWarning k m

def runMapOps (ops : List MapOp) (m : WarningMap) : WarningMap :=
  ops.foldl applyMapOp m

/-- The events that can drive a mounted component's collector state. -/
inductive DriveOp where
  | record (format : JSVal) (args : List JSVal)
  | dismiss (key : Option String)
  | tick
  deriving DecidableEq, Repr

def applyDrive (s : CollectorState) : DriveOp → CollectorState
  | .record f a => recordStep f a s
  | .dismiss k => dismissStep k s
  | .tick => tickStep s

def runDrive (ops : List DriveOp) (s : CollectorState) : CollectorState :=
  ops.foldl applyDrive s

/-- A synchronous block of `record` calls (no event-loop turn between
them). -/
def recordBlock (calls : List (JSVal × List JSVal)) (s : CollectorState) :
    CollectorState :=
  calls.foldl (fun s c => recordStep c.1 c.2 s) s

/-- Substring test on character lists, used to state that a key contains
the circular-reference placeholder. -/
def hasSub (pat : List Char) : List Char → Bool
  | [] => pat.isPrefixOf []
  | c :: rest => pat.isPrefixOf (c :: rest) || hasSub pat rest

/-- Keys of a JavaScript `Map` are unique; association lists reachable
through `mapSet`/`mapDelete` from the empty map keep this property. -/
def NodupKeys (m : WarningMap) : Prop := (m.map Prod.fst).Nodup

/-- Canonical key as the specification words it: each `%s` placeholder in
`String(format)` replaced, in order, by the corresponding leading argument
coerced directly to string; the remaining trailing arguments each
serialized to a safe string form and appended, space-separated, after the
substituted format string. This is the spec-side definition to compare
with `warningKey`, which is embedded from the source. -/
def specCanonicalKey (format : JSVal) (args : List JSVal) : String :=
  let fmt := jsString format
  let n := countPlaceholders fmt.data
  joinSpace (sprintf fmt args :: (args.drop n).map stringifySafe)

/-! ### Helper lemmas -/


theorem sprintfAux_take (args : List JSVal) (n : Nat) (fmt : List Char) (i : Nat) :
    i + countPlaceholders fmt ≤ n →
    sprintfAux (args.take n) fmt i = sprintfAux args fmt i := by
  induction fmt, i using sprintfAux.induct args with
  | case1 rest i ih =>
    intro h
    have hcount : countPlaceholders ('%' :: 's' :: rest) = countPlaceholders rest + 1 := by
      simp [countPlaceholders]
    rw [hcount] at h
    have hi : i < n := by omega
    simp [sprintfAux, List.getElem?_take, hi]
    exact ih (by omega)
  | case2 c rest i hg ih =>
    intro h
    have hcount : countPlaceholders (c :: rest) = countPlaceholders rest := by
      simp [countPlaceholders, hg]
    rw [hcount] at h
    simp [sprintfAux, hg]
    exact ih h
  | case3 i => intro _; rfl

theorem sprintf_take (fmt : String) (args : List JSVal) :
    sprintf fmt (args.take (countPlaceholders fmt.data)) = sprintf fmt args := by
  unfold sprintf
  congr 1
  exact sprintfAux_take args (countPlaceholders fmt.data) fmt.data 0 (by omega)


theorem mapHas_iff (m : WarningMap) (k : String) :
    mapHas m k = true ↔ k ∈ m.map Prod.fst := by
  induction m with
  | nil => simp [mapHas]
  | cons p rest ih =>
    simp only [mapHas, List.map_cons, List.mem_cons, Bool.or_eq_true,
      decide_eq_true_eq, ih]
    exact or_congr eq_comm Iff.rfl

theorem mapGet_append_of_not_has (a b : WarningMap) (k : String)
    (h : mapHas a k = false) :
    mapGet (a ++ b) k = mapGet b k := by
  induction a with
  | nil => simp
  | cons p rest ih =>
    simp [mapHas] at h
    simp [mapGet, h.1, ih h.2]

theorem mapSet_append_self (a : WarningMap) (k : String) (c v : Nat)
    (h : mapHas a k = false) :
    mapSet (a ++ [(k, c)]) k v = a ++ [(k, v)] := by
  induction a with
  | nil => simp [mapSet]
  | cons p rest ih =>
    simp [mapHas] at h
    simp [mapSet, h.1, ih h.2]

theorem mapHas_append_self (a : WarningMap) (k : String) (c : Nat) :
    mapHas (a ++ [(k, c)]) k = true := by
  induction a with
  | nil => simp [mapHas]
  | cons p rest ih => simp [mapHas, ih]

theorem mapGet_mapSet_self (m : WarningMap) (k : String) (v : Nat) :
    mapGet (mapSet m k v) k = v := by
  induction m with
  | nil => simp [mapSet, mapGet]
  | cons p rest ih =>
    by_cases h : p.1 = k
    · simp [mapSet, mapGet, h]
    · simp [mapSet, mapGet, h, ih]

theorem mapGet_mapSet_ne (m : WarningMap) (k j : String) (v : Nat)
    (h : j ≠ k) :
    mapGet (mapSet m k v) j = mapGet m j := by
  induction m with
  | nil => simp [mapSet, mapGet, Ne.symm h]
  | cons p rest ih =>
    by_cases hp : p.1 = k
    · simp [mapSet, mapGet, hp, Ne.symm h]
    · simp [mapSet, mapGet, hp, ih]

theorem mapGet_eq_zero_of_not_has (m : WarningMap) (k : String)
    (h : mapHas m k = false) : mapGet m k = 0 := by
  induction m with
  | nil => simp [mapGet]
  | cons p rest ih =>
    simp [mapHas] at h
    simp [mapGet, h.1, ih h.2]

theorem keys_mapSet (m : WarningMap) (k : String) (v : Nat) :
    (mapSet m k v).map Prod.fst
      = if mapHas m k then m.map Prod.fst else m.map Prod.fst ++ [k] := by
  induction m with
  | nil => simp [mapSet, mapHas]
  | cons p rest ih =>
    by_cases h : p.1 = k
    · simp [mapSet, mapHas, h]
    · cases hr : mapHas rest k <;> simp [mapSet, mapHas, h, ih, hr]

theorem mem_mapSet (m : WarningMap) (k : String) (v : Nat) (e : String × Nat)
    (he : e ∈ mapSet m k v) : e = (k, v) ∨ e ∈ m := by
  induction m with
  | nil => simp [mapSet] at he; simp [he]
  | cons p rest ih =>
    by_cases h : p.1 = k
    · simp [mapSet, h] at he
      rcases he with he | he
      · exact Or.inl he
      · exact Or.inr (List.mem_cons_of_mem _ he)
    · simp only [mapSet, h] at he
      rcases List.mem_cons.mp (by simpa [h] using he) with he1 | he1
      · exact Or.inr (by simp [he1])
      · rcases ih he1 with h1 | h1
        · exact Or.inl h1
        · exact Or.inr (List.mem_cons_of_mem _ h1)

theorem mapDelete_sublist (m : WarningMap) (k : String) :
    (mapDelete m k).Sublist m := by
  induction m with
  | nil => simp [mapDelete]
  | cons p rest ih =>
    by_cases h : p.1 = k
    · simp only [mapDelete, h, if_pos rfl]
      exact List.sublist_cons_self p rest
    · simp only [mapDelete]
      rw [if_neg (by simpa using h)]
      exact ih.cons₂ p

theorem mapDelete_of_not_has (m : WarningMap) (k : String)
    (h : mapHas m k = false) : mapDelete m k = m := by
  induction m with
  | nil => simp [mapDelete]
  | cons p rest ih =>
    simp [mapHas] at h
    simp [mapDelete, h.1, ih h.2]

theorem mapDelete_append (l1 l2 : WarningMap) (k : String) (c : Nat)
    (h : mapHas l1 k = false) :
    mapDelete (l1 ++ (k, c) :: l2) k = l1 ++ l2 := by
  induction l1 with
  | nil => simp [mapDelete]
  | cons p rest ih =>
    simp [mapHas] at h
    simp [mapDelete, h.1, ih h.2]

theorem nodupKeys_mapSet (m : WarningMap) (k : String) (v : Nat)
    (h : NodupKeys m) : NodupKeys (mapSet m k v) := by
  unfold NodupKeys at h ⊢
  rw [keys_mapSet]
  split
  · exact h
  next hm =>
    refine List.Nodup.append h (List.nodup_singleton k) ?_
    intro x hx hk
    simp at hk
    subst hk
    exact hm ((mapHas_iff m x).mpr hx)

theorem nodupKeys_mapDelete (m : WarningMap) (k : String)
    (h : NodupKeys m) : NodupKeys (mapDelete m k) :=
  List.Nodup.sublist ((mapDelete_sublist m k).map Prod.fst) h

theorem mapHas_mapDelete_self (m : WarningMap) (k : String)
    (h : NodupKeys m) : mapHas (mapDelete m k) k = false := by
  induction m with
  | nil => simp [mapDelete, mapHas]
  | cons p rest ih =>
    unfold NodupKeys at h
    rw [List.map_cons, List.nodup_cons] at h
    by_cases hp : p.1 = k
    · have hd : mapDelete (p :: rest) k = rest := by simp [mapDelete, hp]
      rw [hd, ← Bool.not_eq_true, mapHas_iff]
      exact hp ▸ h.1
    · have hd : mapDelete (p :: rest) k = p :: mapDelete rest k := by
        simp [mapDelete, hp]
      rw [hd]
      simp [mapHas, hp]
      exact ih h.2


theorem infix_joinSpace (x : String) (parts : List String) (hx : x ∈ parts) :
    x.data <:+: (joinSpace parts).data := by
  induction parts with
  | nil => cases hx
  | cons a rest ih =>
    cases rest with
    | nil =>
      simp at hx
      subst hx
      exact List.infix_rfl
    | cons b r =>
      rcases List.mem_cons.mp hx with h | h
      · subst h
        show x.data <:+: (x ++ " " ++ joinSpace (b :: r)).data
        rw [String.data_append, String.data_append]
        exact ((List.prefix_append x.data " ".data).trans
          (List.prefix_append _ _)).isInfix
      · refine (ih h).trans ?_
        show (joinSpace (b :: r)).data <:+: (a ++ " " ++ joinSpace (b :: r)).data
        rw [String.data_append]
        exact (List.suffix_append _ _).isInfix

theorem hasSub_of_infix (pat l : List Char) (h : pat <:+: l) :
    hasSub pat l = true := by
  induction l with
  | nil =>
    rcases h with ⟨s, t, hst⟩
    have hp : pat = [] := by
      rcases List.append_eq_nil.mp hst with ⟨h1, h2⟩
      exact (List.append_eq_nil.mp h1).2
    subst hp
    decide
  | cons c rest ih =>
    rcases h with ⟨s, t, hst⟩
    cases s with
    | nil =>
      have hpre : pat <+: c :: rest := ⟨t, by simpa using hst⟩
      simp [hasSub, List.isPrefixOf_iff_prefix.mpr hpre]
    | cons d s2 =>
      have hst2 : s2 ++ pat ++ t = rest := by
        simp only [List.cons_append] at hst
        injection hst
      simp [hasSub, ih ⟨s2, t, hst2⟩]


theorem recordBlock_delivered (calls : List (JSVal × List JSVal))
    (s : CollectorState) :
    (recordBlock calls s).delivered = s.delivered ∧
    (recordBlock calls s).subscribed = s.subscribed := by
  induction calls generalizing s with
  | nil => exact ⟨rfl, rfl⟩
  | cons c cs ih =>
    have h := ih (recordStep c.1 c.2 s)
    simpa [recordBlock, recordStep] using h

theorem recordBlock_scheduled_of_scheduled (calls : List (JSVal × List JSVal))
    (s : CollectorState) (h : s.scheduled = true) :
    (recordBlock calls s).scheduled = true := by
  induction calls generalizing s with
  | nil => exact h
  | cons c cs ih =>
    show (recordBlock cs (recordStep c.1 c.2 s)).scheduled = true
    exact ih _ (by simp [recordStep, h])

theorem recordBlock_scheduled (calls : List (JSVal × List JSVal))
    (s : CollectorState) (hsub : s.subscribed = true) (hne : calls ≠ []) :
    (recordBlock calls s).scheduled = true := by
  cases calls with
  | nil => exact absurd rfl hne
  | cons c cs =>
    show (recordBlock cs (recordStep c.1 c.2 s)).scheduled = true
    exact recordBlock_scheduled_of_scheduled cs _ (by simp [recordStep, hsub])

theorem runDrive_inert (ops : List DriveOp) (s : CollectorState)
    (hsub : s.subscribed = false) (hsch : s.scheduled = false) :
    (runDrive ops s).delivered = s.delivered ∧
    (runDrive ops s).subscribed = false ∧
    (runDrive ops s).scheduled = false := by
  induction ops generalizing s with
  | nil => exact ⟨rfl, hsub, hsch⟩
  | cons op ops ih =>
    cases op with
    | record f a =>
      have h := ih (recordStep f a s) (by simp [recordStep, hsub])
        (by simp [recordStep, hsub, hsch])
      simpa [runDrive, applyDrive, recordStep] using h
    | dismiss k =>
      have h := ih (dismissStep k s) (by simp [dismissStep, hsub])
        (by simp [dismissStep, hsch])
      simpa [runDrive, applyDrive, dismissStep] using h
    | tick =>
      have ht : tickStep s = s := by simp [tickStep, hsch]
      have h := ih (tickStep s) (by rw [ht]; exact hsub) (by rw [ht]; exact hsch)
      rw [ht] at h
      simpa [runDrive, applyDrive, ht] using h


theorem mem_mapDelete (m : WarningMap) (k : String) (e : String × Nat)
    (he : e ∈ mapDelete m k) : e ∈ m :=
  (mapDelete_sublist m k).subset he

theorem mapSet_of_not_has (m : WarningMap) (k : String) (v : Nat)
    (h : mapHas m k = false) : mapSet m k v = m ++ [(k, v)] := by
  induction m with
  | nil => simp [mapSet]
  | cons p rest ih =>
    simp [mapHas] at h
    simp [mapSet, h.1, ih h.2]

theorem tickStep_not_scheduled (s : CollectorState) (h : s.scheduled = false) :
    tickStep s = s := by
  simp [tickStep, h]

theorem updateWarningMap_eq (f : JSVal) (a : List JSVal) (m : WarningMap) :
    updateWarningMap f a m
      = mapSet m (warningKey f a)
          ((if mapHas m (warningKey f a) then mapGet m (warningKey f a)
            else 0) + 1) := rfl

theorem recordN_append (f : JSVal) (a : List JSVal) (m : WarningMap) (n : Nat)
    (hm : mapHas m (warningKey f a) = false) :
    recordN (n + 1) f a m = m ++ [(warningKey f a, n + 1)] := by
  induction n with
  | zero =>
    show updateWarningMap f a m = m ++ [(warningKey f a, 1)]
    rw [updateWarningMap_eq, if_neg (by simp [hm]), mapSet_of_not_has m _ _ hm]
  | succ n ih =>
    show updateWarningMap f a (recordN (n + 1) f a m) = _
    rw [ih, updateWarningMap_eq]
    rw [if_pos (by rw [mapHas_append_self]), mapGet_append_of_not_has _ _ _ hm]
    have hg : mapGet [(warningKey f a, n + 1)] (warningKey f a) = n + 1 := by
      simp [mapGet]
    rw [hg, mapSet_append_self _ _ _ _ hm]

theorem runMapOps_inv (ops : List MapOp) (m : WarningMap)
    (h1 : ∀ e ∈ m, 1 ≤ e.2) (h2 : NodupKeys m) :
    (∀ e ∈ runMapOps ops m, 1 ≤ e.2) ∧ NodupKeys (runMapOps ops m) := by
  induction ops generalizing m with
  | nil => exact ⟨h1, h2⟩
  | cons op ops ih =>
    have hstep : ∀ m2 : WarningMap, (∀ e ∈ m2, 1 ≤ e.2) → NodupKeys m2 →
        (∀ e ∈ runMapOps ops m2, 1 ≤ e.2) ∧ NodupKeys (runMapOps ops m2) := ih
    cases op with
    | record f a =>
      show (∀ e ∈ runMapOps ops (updateWarningMap f a m), 1 ≤ e.2) ∧ _
      refine hstep _ ?_ ?_
      · intro e he
        rw [updateWarningMap_eq] at he
        rcases mem_mapSet _ _ _ _ he with he1 | he1
        · subst he1; omega
        · exact h1 e he1
      · rw [updateWarningMap_eq]
        exact nodupKeys_mapSet _ _ _ h2
    | dismiss k =>
      show (∀ e ∈ runMapOps ops (dismissWarning k m), 1 ≤ e.2) ∧ _
      refine hstep _ ?_ ?_
      · intro e he
        cases k with
        | none => simp [dismissWarning] at he
        | some w =>
          by_cases hw : w ≠ ""
          · simp only [dismissWarning] at he
            rw [if_pos hw] at he
            exact h1 e (mem_mapDelete _ _ _ he)
          · simp only [dismissWarning] at he
            rw [if_neg hw] at he
            simp at he
      · cases k with
        | none => simp [dismissWarning, NodupKeys]
        | some w =>
          by_cases hw : w ≠ ""
          · simp only [dismissWarning]
            rw [if_pos hw]
            exact nodupKeys_mapDelete _ _ h2
          · simp only [dismissWarning]
            rw [if_neg hw]
            simp [NodupKeys]


/-! ### Claims -/

/-- C1: the canonical key is computed deterministically: each `%s`
placeholder in `String(format)` is replaced, in order, by the corresponding
leading argument coerced directly to string, and the remaining trailing
arguments are serialized to a safe string form and appended,
space-separated; two calls yield the same key iff this
formatted-plus-serialized output is identical. -/
theorem canonical_key_matches_spec (f g : JSVal) (a b : List JSVal) :
    warningKey f a = specCanonicalKey f a ∧
    (warningKey f a = warningKey g b ↔
      specCanonicalKey f a = specCanonicalKey g b) := by
  have h : ∀ (x : JSVal) (xs : List JSVal),
      warningKey x xs = specCanonicalKey x xs := by
    intro x xs
    simp only [warningKey, specCanonicalKey]
    rw [sprintf_take]
  exact ⟨h f a, by rw [h f a, h g b]⟩

/-- C2: a `record` call increments the count of an existing key by exactly
one, leaving keys, other counts, and iteration order unchanged; a new key
is inserted with count 1 at the end; hence `n` identical calls starting
from a map without the key yield exactly one entry for it, of count `n`,
appended after the existing entries. -/
theorem record_additive_counting (f : JSVal) (a : List JSVal) (m : WarningMap)
    (n : Nat) (hm : mapHas m (warningKey f a) = false) (hn : 0 < n) :
    recordN n f a m = m ++ [(warningKey f a, n)] ∧
    (∀ m2, mapGet (updateWarningMap f a m2) (warningKey f a)
        = (if mapHas m2 (warningKey f a) then mapGet m2 (warningKey f a)
           else 0) + 1) ∧
    (∀ m2 j, j ≠ warningKey f a →
        mapGet (updateWarningMap f a m2) j = mapGet m2 j) ∧
    (∀ m2, (updateWarningMap f a m2).map Prod.fst
        = if mapHas m2 (warningKey f a) then m2.map Prod.fst
          else m2.map Prod.fst ++ [warningKey f a]) := by
  refine ⟨?_, ?_, ?_, ?_⟩
  · obtain ⟨n2, rfl⟩ : ∃ n2, n = n2 + 1 := ⟨n - 1, by omega⟩
    exact recordN_append f a m n2 hm
  · intro m2
    rw [updateWarningMap_eq]
    exact mapGet_mapSet_self m2 _ _
  · intro m2 j hj
    rw [updateWarningMap_eq]
    exact mapGet_mapSet_ne m2 _ j _ hj
  · intro m2
    rw [updateWarningMap_eq]
    exact keys_mapSet m2 _ _

/-- C2 witness: `record("%s items", 1)` twice yields exactly one entry,
`"1 items"`, with count 2. -/
theorem record_additive_counting_witness :
    recordN 2 (JSVal.str "%s items") [JSVal.num 1] [] = [("1 items", 2)] :=
  (record_additive_counting (JSVal.str "%s items") [JSVal.num 1] [] 2
    rfl (by decide)).1

/-- C3: in every map state reachable by record and dismiss operations from
the empty map, every entry's count is at least 1, and dismissing a key
leaves no entry for it (rather than an entry with count zero). -/
theorem warning_counts_positive (ops : List MapOp) :
    (∀ e ∈ runMapOps ops [], 1 ≤ e.2) ∧
    (∀ k, mapHas (dismissWarning (some k) (runMapOps ops [])) k = false) := by
  have h := runMapOps_inv ops [] (by simp) (by simp [NodupKeys])
  refine ⟨h.1, ?_⟩
  intro k
  by_cases hk : k = ""
  · subst hk
    simp [dismissWarning, mapHas]
  · simp only [dismissWarning]
    rw [if_pos hk]
    exact mapHas_mapDelete_self _ _ h.2

/-- C3 witness at a concrete reachable state. -/
theorem warning_counts_positive_witness :
    1 ≤ (("a", 1) : String × Nat).2 ∧
    mapHas (dismissWarning (some "a")
      (runMapOps [MapOp.record (JSVal.str "a") []] [])) "a" = false :=
  ⟨(warning_counts_positive [MapOp.record (JSVal.str "a") []]).1
      ("a", 1) (by decide),
   (warning_counts_positive [MapOp.record (JSVal.str "a") []]).2 "a"⟩


/-- C4 counterexample: dismissing the empty-string key does not remove just
that entry — by truthiness it clears the whole mapping, so the claim's
universally quantified statement fails at key `""`. -/
theorem dismiss_not_single_for_empty_cex :
    dismissWarning (some "") [("a", 1), ("", 1)] = [] ∧
    dismissWarning (some "") [("a", 1), ("", 1)] ≠ [("a", 1)] :=
  ⟨rfl, by decide⟩

/-- C4 (amended): for every non-empty key, dismiss removes exactly the
single entry for that key when present, leaves the other entries and their
order unchanged, and is a no-op on the mapping when the key is absent. -/
theorem dismiss_removes_single (k : String) (hk : k ≠ "") (l1 l2 : WarningMap)
    (c : Nat) (h1 : mapHas l1 k = false) :
    dismissWarning (some k) (l1 ++ (k, c) :: l2) = l1 ++ l2 ∧
    (∀ m, mapHas m k = false → dismissWarning (some k) m = m) := by
  constructor
  · simp only [dismissWarning]
    rw [if_pos hk]
    exact mapDelete_append l1 l2 k c h1
  · intro m hm
    simp only [dismissWarning]
    rw [if_pos hk]
    exact mapDelete_of_not_has m k hm

/-- C4 witness: after recording "a" and "b", dismissing "a" leaves exactly
the entry `("b", 1)`. -/
theorem dismiss_removes_single_witness :
    dismissWarning (some "a") [("a", 1), ("b", 1)] = [("b", 1)] :=
  (dismiss_removes_single "a" (by decide) [] [("b", 1)] 1 rfl).1

/-- C5 counterexample: in the core module (`src/common.js`), the
warning-log wrapper does not forward to the original host `warn` when no
global `window` is defined, refuting "always forward". -/
theorem warn_not_always_forwarded_cex :
    (consoleWarn false [JSVal.str "hello"]).hostCalls = [] ∧
    (consoleWarn false [JSVal.str "hello"]).hostCalls ≠ [[JSVal.str "hello"]] :=
  ⟨rfl, by decide⟩

/-- C5 (amended): the error-log wrapper always forwards to the original
implementation with identical arguments and additionally records exactly
when its first argument is a string beginning with `"Warning: "`; the
warning-log wrapper always records with identical arguments but forwards
to the original implementation only when a global `window` is defined. -/
theorem wrappers_forward_and_record (args : List JSVal) (w : Bool) :
    (consoleError args).hostCalls = [args] ∧
    ((consoleError args).recordCalls ≠ [] ↔
      ∃ s rest, args = JSVal.str s :: rest ∧ "Warning: ".data <+: s.data) ∧
    ((consoleError args).recordCalls ≠ [] →
      (consoleError args).recordCalls = [args]) ∧
    (consoleWarn w args).recordCalls = [args] ∧
    (consoleWarn w args).hostCalls = (if w then [args] else []) := by
  refine ⟨rfl, ⟨?_, ?_⟩, ?_, rfl, rfl⟩
  · intro h
    cases args with
    | nil => simp [consoleError] at h
    | cons a rest =>
      cases a with
      | str s =>
        by_cases hs : jsStartsWith s "Warning: " = true
        · exact ⟨s, rest, rfl,
            List.isPrefixOf_iff_prefix.mp (by simpa [jsStartsWith] using hs)⟩
        · simp [consoleError, hs] at h
      | num n => simp [consoleError] at h
      | undef => simp [consoleError] at h
      | circular => simp [consoleError] at h
  · rintro ⟨s, rest, rfl, hpre⟩
    simp [consoleError, jsStartsWith, List.isPrefixOf_iff_prefix.mpr hpre]
  · intro h
    cases args with
    | nil => simp [consoleError] at h
    | cons a rest =>
      cases a with
      | str s =>
        by_cases hs : jsStartsWith s "Warning: " = true
        · simp [consoleError, hs]
        · simp [consoleError, hs] at h
      | num n => simp [consoleError] at h
      | undef => simp [consoleError] at h
      | circular => simp [consoleError] at h

/-- C5 (amended) witness at concrete calls. -/
theorem wrappers_forward_and_record_witness :
    (consoleError [JSVal.str "Warning: x"]).recordCalls
      = [[JSVal.str "Warning: x"]] ∧
    (consoleWarn true [JSVal.str "y"]).hostCalls = [[JSVal.str "y"]] :=
  ⟨(wrappers_forward_and_record [JSVal.str "Warning: x"] true).2.2.1
      (by decide),
   (wrappers_forward_and_record [JSVal.str "y"] true).2.2.2.2⟩

/-- C8: key construction never fails on a circular trailing argument — the
resulting key contains the `[Circular ~]` placeholder, and the record call
completes normally, incrementing the key's count. -/
theorem circular_argument_safe (fmt : JSVal) (args : List JSVal)
    (m : WarningMap)
    (h : JSVal.circular ∈ args.drop (countPlaceholders (jsString fmt).data)) :
    hasSub "[Circular ~]".data (warningKey fmt args).data = true ∧
    mapGet (updateWarningMap fmt args m) (warningKey fmt args)
      = (if mapHas m (warningKey fmt args) then mapGet m (warningKey fmt args)
         else 0) + 1 := by
  constructor
  · apply hasSub_of_infix
    have hmem : stringifySafe JSVal.circular ∈
        (sprintf (jsString fmt)
            (args.take (countPlaceholders (jsString fmt).data)) ::
          (args.drop (countPlaceholders (jsString fmt).data)).map
            stringifySafe) :=
      List.mem_cons_of_mem _ (List.mem_map_of_mem _ h)
    have hinf := infix_joinSpace _ _ hmem
    exact List.IsInfix.trans ⟨"[\"".data, "\"]".data, rfl⟩ hinf
  · rw [updateWarningMap_eq]
    exact mapGet_mapSet_self m _ _

/-- C8 witness: a concrete record call with a circular argument. -/
theorem circular_argument_safe_witness :
    hasSub "[Circular ~]".data
      (warningKey (JSVal.str "boom") [JSVal.circular]).data = true ∧
    mapGet (updateWarningMap (JSVal.str "boom") [JSVal.circular] [])
      (warningKey (JSVal.str "boom") [JSVal.circular]) = 1 :=
  ⟨(circular_argument_safe (JSVal.str "boom") [JSVal.circular] []
      (by decide)).1,
   (circular_argument_safe (JSVal.str "boom") [JSVal.circular] []
      (by decide)).2⟩

/-- C9: `isWarningIgnored` is a pure predicate that is true iff some string
of the ignore list, read at call time, is a literal case-sensitive
character-for-character prefix of the key; with the claim's two examples. -/
theorem ignored_iff_literal (w : String) (l : List String) :
    (isWarningIgnored w (some l) = true ↔ ∃ p ∈ l, p.data <+: w.data) ∧
    isWarningIgnored w none = false ∧
    isWarningIgnored "Warning: foo" (some ["Warning: "]) = true ∧
    isWarningIgnored "foo" (some ["Warning: "]) = false := by
  refine ⟨?_, rfl, by decide, by decide⟩
  simp only [isWarningIgnored, List.any_eq_true, jsStartsWith]
  constructor
  · rintro ⟨p, hp, hpre⟩
    exact ⟨p, hp, List.isPrefixOf_iff_prefix.mp hpre⟩
  · rintro ⟨p, hp, hpre⟩
    exact ⟨p, hp, List.isPrefixOf_iff_prefix.mpr hpre⟩

/-- C10: dismissal branches on key truthiness: the empty-string key, which
`record("")` legitimately produces, clears the entire mapping, while a
non-empty key removes only its own entry. -/
theorem dismiss_empty_string_clears (m l1 l2 : WarningMap) (k : String)
    (c : Nat) (hk : k ≠ "") (h1 : mapHas l1 k = false) :
    updateWarningMap (JSVal.str "") [] [] = [("", 1)] ∧
    dismissWarning (some "") m = [] ∧
    dismissWarning (some k) (l1 ++ (k, c) :: l2) = l1 ++ l2 := by
  refine ⟨rfl, rfl, ?_⟩
  simp only [dismissWarning]
  rw [if_pos hk]
  exact mapDelete_append l1 l2 k c h1

/-- C10 witness at concrete maps. -/
theorem dismiss_empty_string_clears_witness :
    dismissWarning (some "") [("", 1), ("x", 3)] = [] ∧
    dismissWarning (some "b") [("a", 1), ("b", 2)] = [("a", 1)] :=
  ⟨(dismiss_empty_string_clears [("", 1), ("x", 3)] [("a", 1)] [] "b" 2
      (by decide) (by decide)).2.1,
   (dismiss_empty_string_clears [("", 1), ("x", 3)] [("a", 1)] [] "b" 2
      (by decide) (by decide)).2.2⟩


/-- C6 (code bug): unsubscribing never removes the subscription. The
handle stored by `componentDidMount` is what `addListener` on the `events`
module's `EventEmitter` returns — the emitter itself, which has no
`remove` method — so `componentWillUnmount`'s guarded
`this._listener.remove()` never runs and unmounting is a no-op on the
subscription. Consequently, after subscribing and immediately
"unsubscribing", one record call and the next event-loop turn still
deliver a notification to the unmounted component, instead of the zero
deliveries the claim requires. -/
theorem unsubscribe_never_removes :
    unsubscribeStep (subscribeStep ⟨[], false, false, []⟩)
      = subscribeStep ⟨[], false, false, []⟩ ∧
    (runDrive [DriveOp.record (JSVal.str "a") [], DriveOp.tick]
        (unsubscribeStep (subscribeStep ⟨[], false, false, []⟩))).delivered
      = [[("a", 1)]] ∧
    (runDrive [DriveOp.record (JSVal.str "a") [], DriveOp.tick]
        (unsubscribeStep (subscribeStep ⟨[], false, false, []⟩))).delivered
      ≠ [] := by
  refine ⟨rfl, by decide, by decide⟩

/-- C7: any nonempty synchronous block of record calls delivers nothing
synchronously to a subscriber; the next event-loop turn delivers exactly
one notification carrying the final mapping state, and a further turn
delivers nothing more. -/
theorem notification_coalescing (s : CollectorState)
    (calls : List (JSVal × List JSVal)) (hsub : s.subscribed = true)
    (_hsch : s.scheduled = false) (hne : calls ≠ []) :
    (recordBlock calls s).delivered = s.delivered ∧
    (tickStep (recordBlock calls s)).delivered
      = s.delivered ++ [(recordBlock calls s).warningMap] ∧
    tickStep (tickStep (recordBlock calls s))
      = tickStep (recordBlock calls s) := by
  have hd := recordBlock_delivered calls s
  have hs := recordBlock_scheduled calls s hsub hne
  refine ⟨hd.1, ?_, ?_⟩
  · simp [tickStep, hs, hd.1]
  · exact tickStep_not_scheduled _ (by simp [tickStep, hs])

/-- C7 witness: two record calls in one block, then one tick, deliver the
final map exactly once. -/
theorem notification_coalescing_witness :
    (recordBlock [(JSVal.str "a", []), (JSVal.str "a", [])]
        ⟨[], true, false, []⟩).delivered = [] ∧
    (tickStep (recordBlock [(JSVal.str "a", []), (JSVal.str "a", [])]
        ⟨[], true, false, []⟩)).delivered = [[("a", 2)]] :=
  ⟨(notification_coalescing ⟨[], true, false, []⟩
      [(JSVal.str "a", []), (JSVal.str "a", [])] rfl rfl (by decide)).1,
   (notification_coalescing ⟨[], true, false, []⟩
      [(JSVal.str "a", []), (JSVal.str "a", [])] rfl rfl (by decide)).2.1⟩


end YellowBox
